import Mathlib

/-!
Verification of the `SentinelCore` engine of the Social-Engineering Risk Scorer
(`src/main.py`): the risk scorer `simulate_adversary`, the entity-backed
hardener `nlp_harden`, and the lexical fallback hardener `fallback_harden`.

Strings are modelled as `List Char`.  The two regular expressions of the
source,

  email: `[a-zA-Z0-9_.+-]+@[a-zA-Z0-9-]+\.[a-zA-Z0-9-.]+`
  phone: `(\+?\d{1,3}[\s-]?)?(\d{10})`

are embedded as explicit matchers that return, at a given start position, the
length of the match the Python backtracking engine would produce there
(`\d` and `\s` are modelled over their ASCII ranges).  `re.search` is
existence of a match at some position; `re.sub` is leftmost, non-overlapping
replacement that resumes after each match.
-/

namespace Sentinel

/-- Character class `[a-zA-Z0-9_.+-]` (local part of the email pattern). -/
def isLocalChar (c : Char) : Bool :=
  c.isAlpha || c.isDigit || c == '_' || c == '.' || c == '+' || c == '-'

/-- Character class `[a-zA-Z0-9-]` (first domain component of the email pattern). -/
def isDomainChar (c : Char) : Bool :=
  c.isAlpha || c.isDigit || c == '-'

/-- Character class `[a-zA-Z0-9-.]` (tail of the email pattern). -/
def isDomainDotChar (c : Char) : Bool :=
  c.isAlpha || c.isDigit || c == '-' || c == '.'

/-- Character class `[\s-]` of the phone pattern (ASCII whitespace or hyphen). -/
def isSepChar (c : Char) : Bool :=
  c == ' ' || c == '\t' || c == '\n' || c == '\r' || c == '\x0b' || c == '\x0c' || c == '-'

/-- Matcher for `[a-zA-Z0-9_.+-]+@[a-zA-Z0-9-]+\.[a-zA-Z0-9-.]+` at the head of
`l`: returns the length of the match produced by the backtracking engine, if
any.  Each greedy `+` run is maximal: the literal that follows each of the
first two runs (`@`, `.`) lies outside the preceding class, so no shorter
run can be completed, and the final run has nothing after it. -/
def matchEmailAt (l : List Char) : Option Nat :=
  let a := (l.takeWhile isLocalChar).length
  if a = 0 then none else
  match l.drop a with
  | '@' :: r1 =>
    let b := (r1.takeWhile isDomainChar).length
    if b = 0 then none else
    match r1.drop b with
    | '.' :: r2 =>
      let c := (r2.takeWhile isDomainDotChar).length
      if c = 0 then none else some (a + 1 + b + 1 + c)
    | _ => none
  | _ => none

/-- Whether the first `k` characters of `l` exist and are ASCII digits. -/
def hasDigits (k : Nat) (l : List Char) : Bool :=
  decide (k ≤ l.length) && (l.take k).all Char.isDigit

/-- Alternatives for the optional separator `[\s-]?` of the phone pattern, in
the greedy preference order of the engine (consume the separator first), paired
with the number of characters consumed so far. -/
def sepOptions (n : Nat) (l : List Char) : List (Nat × List Char) :=
  match l with
  | c :: t => if isSepChar c then [(n + 1, t), (n, c :: t)] else [(n, c :: t)]
  | [] => [(n, [])]

/-- Alternatives for `\d{1,3}[\s-]?`, in the greedy preference order of the
engine (three digits first, then two, then one). -/
def digitOptions (n : Nat) (l : List Char) : List (Nat × List Char) :=
  (if hasDigits 3 l then sepOptions (n + 3) (l.drop 3) else [])
    ++ (if hasDigits 2 l then sepOptions (n + 2) (l.drop 2) else [])
    ++ (if hasDigits 1 l then sepOptions (n + 1) (l.drop 1) else [])

/-- Alternatives for the optional group `(\+?\d{1,3}[\s-]?)?` with the group
present, in preference order: with the leading `+` consumed first (when
present), then without it. -/
def group1Options (l : List Char) : List (Nat × List Char) :=
  (match l with
   | '+' :: t => digitOptions 1 t
   | _ => []) ++ digitOptions 0 l

/-- Matcher for `(\+?\d{1,3}[\s-]?)?(\d{10})` at the head of `l`: the first
alternative (group present in preference order, then group absent) whose
remainder starts with ten ASCII digits wins, exactly as the backtracking
engine tries them. -/
def matchPhoneAt (l : List Char) : Option Nat :=
  (group1Options l ++ [(0, l)]).findSome? fun (p : Nat × List Char) =>
    if hasDigits 10 p.2 then some (p.1 + 10) else none

/-- Semantics of `re.search`: a match of `m` starts at some position of `l`
(the position at the end of the string included). -/
def existsMatch (m : List Char → Option Nat) : List Char → Bool
  | [] => (m []).isSome
  | c :: t => (m (c :: t)).isSome || existsMatch m t

/-- Fuelled worker for `re.sub`: leftmost match, replace, resume after the
match; on no match at the current position keep one character and advance.
All matchers used here return lengths `≥ 1`, and the fuel is initialised to
the length of the list, so the fuel never runs out. -/
def substFuel (m : List Char → Option Nat) (r : List Char) : Nat → List Char → List Char
  | 0, l => l
  | _ + 1, [] => []
  | fuel + 1, c :: t =>
    match m (c :: t) with
    | some n => r ++ substFuel m r fuel (t.drop (n - 1))
    | none => c :: substFuel m r fuel t

/-- Embedding of `re.sub(pattern, r, l)` for a matcher `m` embedding `pattern`. -/
def subst (m : List Char → Option Nat) (r : List Char) (l : List Char) : List Char :=
  substFuel m r l.length l

/-- Python operator `k in s`: `k` occurs as a contiguous substring of `s`. -/
def containsSubstr (k : List Char) : List Char → Bool
  | [] => k.isEmpty
  | c :: t => k.isPrefixOf (c :: t) || containsSubstr k t

/-- CPython IGNORECASE match of one text character `c` against one pattern
literal `p` that is a lowercase ASCII character (every taxonomy key is such):
the engine matches when the simple Unicode lowercase of `c` equals `p`, or
when that lowercase lies in the extra equivalence class sre compiles for `p`.
This case analysis is complete for lowercase ASCII `p`: the only code points
outside ASCII whose simple lowercase is an ASCII letter are İ (U+0130 → i)
and the Kelvin sign (U+212A → k), and the only sre equivalence classes
meeting ASCII are i ↔ ı (U+0069, U+0131) and s ↔ ſ (U+0073, U+017F). -/
def matchUniIgnore (p c : Char) : Bool :=
  p == c.toLower
    || (p == 'i' && (c == '\u0130' || c == '\u0131'))
    || (p == 's' && c == '\u017F')
    || (p == 'k' && c == '\u212A')

/-- Whether the IGNORECASE literal pattern `k` matches at the head of `l`
(one character of text per pattern character). -/
def matchesCIAt : List Char → List Char → Bool
  | [], _ => true
  | _ :: _, [] => false
  | p :: ps, c :: cs => matchUniIgnore p c && matchesCIAt ps cs

/-- Fuelled worker for case-insensitive literal replacement
(`re.compile(re.escape(k), re.IGNORECASE).sub(v, l)` for a lowercase ASCII
key `k`): at each position, if the next `k.length` characters IGNORECASE
match `k`, emit `v` and resume after them, else keep one character and
advance. -/
def substCIFuel (k v : List Char) : Nat → List Char → List Char
  | 0, l => l
  | _ + 1, [] => []
  | fuel + 1, c :: t =>
    if matchesCIAt k (c :: t) then
      v ++ substCIFuel k v fuel (t.drop (k.length - 1))
    else
      c :: substCIFuel k v fuel t

/-- Case-insensitive literal replacement of `k` by `v` in `l`. -/
def substCI (k v : List Char) (l : List Char) : List Char :=
  substCIFuel k v l.length l

/-- Whether `c` is one of the four code points that IGNORECASE matches
against a lowercase ASCII letter beyond plain ASCII lowercasing
(İ, ı, ſ and the Kelvin sign). -/
def anyEquivPoint (c : Char) : Bool :=
  c == '\u0130' || c == '\u0131' || c == '\u017F' || c == '\u212A'

/-- Text free of the four special code points: on such text the IGNORECASE
literal test coincides with ASCII-lowercase comparison. -/
def noCaseEquiv (l : List Char) : Bool :=
  l.all fun c => !anyEquivPoint c

/-- The affiliation taxonomy of `SentinelCore.__init__`, in insertion order. -/
def taxonomy : List (String × String) :=
  [("google", "a Tier-1 Tech Corporation"),
   ("microsoft", "a Global Software Leader"),
   ("manager", "Strategic Director"),
   ("engineer", "Technical Specialist"),
   ("sql", "Structured Database Systems"),
   ("hyderabad", "a major Tech Hub")]

/-- Evidence line appended when the email indicator fires. -/
def emailLine : String := "LEAK: Direct email identified. Vulnerable to Phishing."

/-- Evidence line appended when the phone indicator fires. -/
def phoneLine : String := "LEAK: Phone contact exposed. Vulnerable to SIM-swap."

/-- Python method `str.upper` over its ASCII range: uppercase every character. -/
def upperStr (s : String) : String := ⟨s.data.map Char.toUpper⟩

/-- Evidence line appended when a taxonomy term fires
(`f"RECON: Connection to {brand.upper()} found."`). -/
def reconLine (k : String) : String :=
  "RECON: Connection to " ++ upperStr k ++ " found."

/-- Body of the taxonomy loop of `simulate_adversary`: add 15 and append the
RECON line when the term occurs in the lowercased text. -/
def taxStep (low : List Char) (acc : Int × List String) (kv : String × String) :
    Int × List String :=
  if containsSubstr kv.1.data low then (acc.1 + 15, acc.2 ++ [reconLine kv.1]) else acc

/-- The scorer `SentinelCore.simulate_adversary`: email check (+40), phone check (+30),
taxonomy loop (+15 per term), final clamp `min(score, 100)`. -/
def simulate_adversary (text : String) : Int × List String :=
  let logs : List String := []
  let score : Int := 0
  let (score, logs) :=
    if existsMatch matchEmailAt text.data then (score + 40, logs ++ [emailLine])
    else (score, logs)
  let (score, logs) :=
    if existsMatch matchPhoneAt text.data then (score + 30, logs ++ [phoneLine])
    else (score, logs)
  let (score, logs) := taxonomy.foldl (taxStep (text.data.map Char.toLower)) (score, logs)
  (min score 100, logs)

/-- The lexical hardener `SentinelCore.fallback_harden`: email substitution, then phone
substitution, then one case-insensitive taxonomy substitution per term in
taxonomy order. -/
def fallback_harden (text : String) : String :=
  let safe := text.data
  let safe := subst matchEmailAt "[ID_GATEWAY]".data safe
  let safe := subst matchPhoneAt "[VERIFIED_LINE]".data safe
  let safe := taxonomy.foldl (fun acc kv => substCI kv.1.data kv.2.data acc) safe
  ⟨safe⟩

/-- First stage of the fallback path: every email-shaped substring becomes
`[ID_GATEWAY]`. -/
def emailRedact (l : List Char) : List Char := subst matchEmailAt "[ID_GATEWAY]".data l

/-- Second stage of the fallback path: every phone-shaped substring becomes
`[VERIFIED_LINE]`. -/
def phoneRedact (l : List Char) : List Char := subst matchPhoneAt "[VERIFIED_LINE]".data l

/-- Third stage of the fallback path: the taxonomy substitutions, in
taxonomy order. -/
def taxonomyRedact (l : List Char) : List Char :=
  taxonomy.foldl (fun acc kv => substCI kv.1.data kv.2.data acc) l

/-- An entity span as handed to `nlp_harden` by the entity-recognition
capability: a half-open character range plus a label. -/
structure Ent where
  start_char : Nat
  end_char : Nat
  label_ : String
deriving DecidableEq

/-- The labels whose spans are replaced by the entity-backed path. -/
def hiddenLabels : List String := ["PERSON", "ORG", "GPE", "FAC", "LOC"]

/-- The placeholder `f"[HIDDEN_{ent.label_}]"`. -/
def placeholder (ent : Ent) : List Char := ("[HIDDEN_" ++ ent.label_ ++ "]").data

/-- Loop body of the entity-backed path: splice the placeholder over the
character range of the span when its label is hidden
(`hardened[:ent.start_char] + replacement + hardened[ent.end_char:]`,
Python slices clamp to the string length exactly as `take`/`drop` do). -/
def applyEnt (hardened : List Char) (ent : Ent) : List Char :=
  if hiddenLabels.contains ent.label_ then
    hardened.take ent.start_char ++ placeholder ent ++ hardened.drop ent.end_char
  else hardened

/-- Embedding of `for ent in reversed(doc.ents): hardened = ...`: fold the
loop body over the spans of the capability in reverse of the order they were
returned. -/
def entityPass (text : List Char) (ents : List Ent) : List Char :=
  ents.reverse.foldl applyEnt text

/-- The hardener `SentinelCore.nlp_harden`.  The entity-recognition capability is the
process-wide `nlp` handle: `none` when unavailable (the load-time
`try/except` set it to `None`), otherwise a function whose invocation either
returns the spans or raises; `nlp_harden` itself wraps the invocation in no
handler, so an invocation error propagates. -/
def nlp_harden (cap : Option (String → Except String (List Ent))) (text : String) :
    Except String String :=
  match cap with
  | none => Except.ok (fallback_harden text)
  | some f =>
    match f text with
    | Except.error e => Except.error e
    | Except.ok ents =>
      let hardened := entityPass text.data ents
      let hardened := subst matchEmailAt "[ID_GATEWAY]".data hardened
      let hardened := subst matchPhoneAt "[VERIFIED_LINE]".data hardened
      Except.ok ⟨hardened⟩

/-- Insert a span into a list that is sorted by start position descending. -/
def insertByStartDesc (e : Ent) : List Ent → List Ent
  | [] => [e]
  | f :: rest =>
    if f.start_char ≤ e.start_char then e :: f :: rest else f :: insertByStartDesc e rest

/-- Sort spans by start position descending. -/
def sortByStartDesc (ents : List Ent) : List Ent := ents.foldr insertByStartDesc []

/-- Modelled from the spec: the entity pass as §4.2 describes it — "Sort
spans by start position descending (process right-to-left)" — applied to the
span sequence in whatever order the capability returned it.  Used to compare
the claimed behaviour with `entityPass`, which only reverses the sequence. -/
def specSortedDescPass (text : List Char) (ents : List Ent) : List Char :=
  (sortByStartDesc ents).foldl applyEnt text

/-- Reference rendering of an entity replacement pass over spans that are
sorted ascending by start position and pairwise disjoint: the text is cut at
the span boundaries left to right, hidden spans becoming placeholders.
`pos` is the absolute position already emitted. -/
def render (text : List Char) (pos : Nat) : List Ent → List Char
  | [] => text.drop pos
  | e :: rest =>
    if hiddenLabels.contains e.label_ then
      (text.drop pos).take (e.start_char - pos) ++ placeholder e ++ render text e.end_char rest
    else render text pos rest

/-- Well-formed span sequence: sorted ascending by start, pairwise disjoint,
each span a valid range inside the text. -/
def spansOK (text : List Char) : List Ent → Bool
  | [] => true
  | e :: rest =>
    decide (e.start_char ≤ e.end_char) && decide (e.end_char ≤ text.length)
      && rest.all (fun f => decide (e.end_char ≤ f.start_char)) && spansOK text rest

/-- The email indicator fires on `text`. -/
def emailFires (text : String) : Bool := existsMatch matchEmailAt text.data

/-- The phone indicator fires on `text`. -/
def phoneFires (text : String) : Bool := existsMatch matchPhoneAt text.data

/-- The taxonomy entries whose term occurs in the lowercased text, in
taxonomy order. -/
def firedTerms (text : String) : List (String × String) :=
  taxonomy.filter fun kv => containsSubstr kv.1.data (text.data.map Char.toLower)

/-- Modelled from the spec: the risk assessment as §4.1 states it — 40 for
the email check (at most once), plus 30 for the phone check (at most once),
plus 15 per fired taxonomy term, clamped to 100; the evidence is the email
line, then the phone line, then one RECON line per fired term in taxonomy
order. -/
def assessSpec (text : String) : Int × List String :=
  (min ((if emailFires text then (40 : Int) else 0)
      + (if phoneFires text then (30 : Int) else 0)
      + 15 * ((firedTerms text).length : Int)) 100,
   (if emailFires text then [emailLine] else [])
     ++ (if phoneFires text then [phoneLine] else [])
     ++ (firedTerms text).map fun kv => reconLine kv.1)

theorem taxStep_foldl (low : List Char) (ts : List (String × String)) (s : Int)
    (L : List String) :
    ts.foldl (taxStep low) (s, L) =
      (s + 15 * ((ts.filter fun kv => containsSubstr kv.1.data low).length : Int),
       L ++ (ts.filter fun kv => containsSubstr kv.1.data low).map fun kv => reconLine kv.1) := by
  induction ts generalizing s L with
  | nil => simp
  | cons kv ts ih =>
    simp only [List.foldl_cons, List.filter_cons]
    by_cases h : containsSubstr kv.1.data low
    · simp only [h, if_pos, taxStep, if_true, ih, List.length_cons, List.map_cons]
      refine Prod.ext ?_ ?_
      · push_cast
        ring
      · simp
    · simp [taxStep, h, ih]

/-- Closed form of `simulate_adversary`: it computes exactly `assessSpec`. -/
theorem simulate_closed (text : String) : simulate_adversary text = assessSpec text := by
  unfold simulate_adversary assessSpec emailFires phoneFires firedTerms
  cases he : existsMatch matchEmailAt text.data <;>
    cases hp : existsMatch matchPhoneAt text.data <;>
    simp only [he, hp, if_true, if_false, Bool.false_eq_true, taxStep_foldl, ite_true,
      ite_false] <;>
    refine Prod.ext ?_ ?_ <;>
    simp [List.append_assoc]

theorem substFuel_id (m : List Char → Option Nat) (r : List Char) (fuel : Nat)
    (l : List Char) (h : existsMatch m l = false) : substFuel m r fuel l = l := by
  induction fuel generalizing l with
  | zero => rfl
  | succ fuel ih =>
    cases l with
    | nil => rfl
    | cons c t =>
      simp only [existsMatch, Bool.or_eq_false_iff] at h
      obtain ⟨h1, h2⟩ := h
      rw [substFuel]
      cases hm : m (c :: t) with
      | some n =>
        rw [hm] at h1
        simp at h1
      | none => exact congrArg (c :: ·) (ih t h2)

/-- When no match of `m` occurs anywhere in `l`, `re.sub` leaves `l` unchanged. -/
theorem subst_id (m : List Char → Option Nat) (r : List Char) (l : List Char)
    (h : existsMatch m l = false) : subst m r l = l :=
  substFuel_id m r l.length l h

/-- On text free of the four special code points, the IGNORECASE literal
test coincides with the ASCII-lowercase prefix comparison that the scorer
containment test uses. -/
theorem matchesCIAt_toLower (k l : List Char) (hnc : noCaseEquiv l = true) :
    matchesCIAt k l = k.isPrefixOf (l.map Char.toLower) := by
  induction k generalizing l with
  | nil => cases l <;> rfl
  | cons p ps ih =>
    cases l with
    | nil => rfl
    | cons c t =>
      simp only [noCaseEquiv, List.all_cons, Bool.and_eq_true] at hnc
      obtain ⟨hc, ht⟩ := hnc
      rw [Bool.not_eq_eq_eq_not, Bool.not_true] at hc
      simp only [anyEquivPoint, Bool.or_eq_false_iff] at hc
      obtain ⟨⟨⟨h1, h2⟩, h3⟩, h4⟩ := hc
      rw [List.map_cons]
      show (matchUniIgnore p c && matchesCIAt ps t)
        = (p == c.toLower && ps.isPrefixOf (t.map Char.toLower))
      rw [ih t ht]
      congr 1
      simp [matchUniIgnore, h1, h2, h3, h4]

theorem substCIFuel_id (k v : List Char) (fuel : Nat) (l : List Char)
    (hnc : noCaseEquiv l = true)
    (h : containsSubstr k (l.map Char.toLower) = false) : substCIFuel k v fuel l = l := by
  induction fuel generalizing l with
  | zero => rfl
  | succ fuel ih =>
    cases l with
    | nil => rfl
    | cons c t =>
      rw [List.map_cons] at h
      simp only [containsSubstr, Bool.or_eq_false_iff] at h
      have hnct : noCaseEquiv t = true := by
        simp only [noCaseEquiv, List.all_cons, Bool.and_eq_true] at hnc
        exact hnc.2
      rw [substCIFuel, matchesCIAt_toLower k (c :: t) hnc, List.map_cons,
        if_neg (by simp [h.1])]
      exact congrArg (c :: ·) (ih t hnct h.2)

/-- When `k` does not occur in the lowercased `l`, and `l` is free of the
four special code points, the case-insensitive substitution leaves `l`
unchanged.  (Without the second hypothesis this fails: the program rewrites
the long s of `"ſql"` although `sql` does not occur in `"ſql".lower()`.) -/
theorem substCI_id (k v : List Char) (l : List Char) (hnc : noCaseEquiv l = true)
    (h : containsSubstr k (l.map Char.toLower) = false) : substCI k v l = l :=
  substCIFuel_id k v l.length l hnc h

/-- When no term of `ts` occurs in the lowercased `l`, and `l` is free of
the four special code points, the whole taxonomy substitution pass leaves
`l` unchanged. -/
theorem foldl_substCI_id (ts : List (String × String)) (l : List Char)
    (hnc : noCaseEquiv l = true)
    (h : ∀ kv ∈ ts, containsSubstr kv.1.data (l.map Char.toLower) = false) :
    ts.foldl (fun acc kv => substCI kv.1.data kv.2.data acc) l = l := by
  induction ts with
  | nil => rfl
  | cons kv ts ih =>
    rw [List.foldl_cons, substCI_id _ _ _ hnc (h kv (List.mem_cons_self kv ts))]
    exact ih fun kv' hkv' => h kv' (List.mem_cons_of_mem kv hkv')

theorem spansOK_parts {text : List Char} {e : Ent} {rest : List Ent}
    (hok : spansOK text (e :: rest) = true) :
    e.start_char ≤ e.end_char ∧ e.end_char ≤ text.length
      ∧ (∀ f ∈ rest, e.end_char ≤ f.start_char) ∧ spansOK text rest = true := by
  simp only [spansOK, Bool.and_eq_true, decide_eq_true_eq, List.all_eq_true] at hok
  exact ⟨hok.1.1.1, hok.1.1.2, fun f hf => hok.1.2 f hf, hok.2⟩

/-- The rendering of spans that all start at or after position `p` leaves the
text before `p` intact. -/
theorem render_take (text : List Char) (ents : List Ent) (pos p : Nat)
    (hp : pos ≤ p) (hlen : p ≤ text.length)
    (hstart : ∀ e ∈ ents, p ≤ e.start_char) (hok : spansOK text ents = true) :
    (render text pos ents).take (p - pos) = (text.drop pos).take (p - pos) := by
  induction ents generalizing pos with
  | nil => rfl
  | cons e rest ih =>
    obtain ⟨h1, h2, h3, h4⟩ := spansOK_parts hok
    by_cases hh : hiddenLabels.contains e.label_ = true
    · have hep : p ≤ e.start_char := hstart e (List.mem_cons_self e rest)
      have hA : p - pos ≤ ((text.drop pos).take (e.start_char - pos)).length := by
        simp only [List.length_take, List.length_drop]
        omega
      rw [render, if_pos hh,
        List.take_append_of_le_length (le_trans hA (by simp)),
        List.take_append_of_le_length hA, List.take_take,
        Nat.min_eq_left (by omega)]
    · rw [render, if_neg hh]
      exact ih pos hp (fun f hf => hstart f (List.mem_cons_of_mem e hf)) h4

/-- Dropping the text before `p` from the rendering of spans that all start
at or after `p` renders the same spans from `p`. -/
theorem render_drop (text : List Char) (ents : List Ent) (pos p : Nat)
    (hp : pos ≤ p) (hlen : p ≤ text.length)
    (hstart : ∀ e ∈ ents, p ≤ e.start_char) (hok : spansOK text ents = true) :
    (render text pos ents).drop (p - pos) = render text p ents := by
  induction ents generalizing pos with
  | nil =>
    show (List.drop pos text).drop (p - pos) = List.drop p text
    rw [List.drop_drop]
    congr 1
    omega
  | cons e rest ih =>
    obtain ⟨h1, h2, h3, h4⟩ := spansOK_parts hok
    by_cases hh : hiddenLabels.contains e.label_ = true
    · have hep : p ≤ e.start_char := hstart e (List.mem_cons_self e rest)
      have hA : p - pos ≤ ((text.drop pos).take (e.start_char - pos)).length := by
        simp only [List.length_take, List.length_drop]
        omega
      rw [render, if_pos hh,
        List.drop_append_of_le_length (le_trans hA (by simp)),
        List.drop_append_of_le_length hA, List.drop_take, List.drop_drop,
        render, if_pos hh]
      have e1 : pos + (p - pos) = p := by omega
      have e2 : e.start_char - pos - (p - pos) = e.start_char - p := by omega
      rw [e1, e2]
    · rw [render, if_neg hh, render, if_neg hh]
      exact ih pos hp (fun f hf => hstart f (List.mem_cons_of_mem e hf)) h4

/-- Core correctness of the entity-backed pass on a well-formed span
sequence given ascending: folding the loop body over the reversed sequence
replaces exactly the span ranges of the original text, so no replacement
disturbs the characters of a span processed after it. -/
theorem entityPass_render (text : List Char) (ents : List Ent)
    (hok : spansOK text ents = true) : entityPass text ents = render text 0 ents := by
  induction ents with
  | nil => rfl
  | cons e rest ih =>
    obtain ⟨h1, h2, h3, h4⟩ := spansOK_parts hok
    have hrev : entityPass text (e :: rest) = applyEnt (entityPass text rest) e := by
      unfold entityPass
      rw [List.reverse_cons, List.foldl_append, List.foldl_cons, List.foldl_nil]
    rw [hrev, ih h4, applyEnt]
    by_cases hh : hiddenLabels.contains e.label_ = true
    · rw [if_pos hh, render, if_pos hh]
      have htake := render_take text rest 0 e.start_char (Nat.zero_le _) (le_trans h1 h2)
        (fun f hf => le_trans h1 (h3 f hf)) h4
      have hdrop := render_drop text rest 0 e.end_char (Nat.zero_le _) h2 h3 h4
      rw [Nat.sub_zero] at htake hdrop
      rw [List.drop_zero] at htake
      rw [htake, hdrop, List.drop_zero, Nat.sub_zero]
    · rw [if_neg hh, render, if_neg hh]

theorem min_hundred_eq_zero {S : Int} (h : min S 100 = 0) : S = 0 := by
  rcases min_cases S 100 with ⟨h1, h2⟩ | ⟨h1, h2⟩ <;> omega

/-- A capability handle whose invocation always fails. -/
def failingCap : String → Except String (List Ent) := fun _ => Except.error "model failure"

/-- A capability handle that returns no spans. -/
def emptyCap : String → Except String (List Ent) := fun _ => Except.ok []

/-- C1: `simulate_adversary` accumulates the score from 0 in the fixed order
email (+40, at most once), phone (+30, at most once), then +15 per taxonomy
term occurring in the lowercased text, in taxonomy order, and returns exactly
the corresponding evidence lines in that order; on
`"jane@acme.com works at Google, call 9876543210"` it returns 85 with the
three lines email, phone, taxonomy. -/
theorem claim_C1 :
    (∀ text : String, simulate_adversary text = assessSpec text) ∧
      simulate_adversary "jane@acme.com works at Google, call 9876543210" =
        (85, [emailLine, phoneLine, "RECON: Connection to GOOGLE found."]) :=
  ⟨simulate_closed, by decide⟩

/-- C2: the fallback path replaces emails first, then phones, then applies
the case-insensitive taxonomy replacements in taxonomy order; in particular
`"I am a Manager at Google"` hardens to
`"I am a Strategic Director at a Tier-1 Tech Corporation"`. -/
theorem claim_C2 :
    (∀ text : String,
        fallback_harden text = ⟨taxonomyRedact (phoneRedact (emailRedact text.data))⟩) ∧
      fallback_harden "I am a Manager at Google" =
        "I am a Strategic Director at a Tier-1 Tech Corporation" :=
  ⟨fun _ => rfl, by decide⟩

/-- C3 (amended): the entity-backed pass processes the spans in reverse of
the order the capability returned them; whenever that returned order is
ascending by start position with pairwise-disjoint in-bounds spans, the
reversed processing is right-to-left and replaces exactly the original
character ranges — no replacement shifts the offsets of a span processed
later. -/
theorem claim_C3 (text : String) (ents : List Ent)
    (hok : spansOK text.data ents = true) :
    entityPass text.data ents = render text.data 0 ents :=
  entityPass_render text.data ents hok

theorem claim_C3_witness :
    spansOK "abcdefgh".data [⟨0, 1, "PERSON"⟩, ⟨5, 6, "ORG"⟩] = true ∧
      entityPass "abcdefgh".data [⟨0, 1, "PERSON"⟩, ⟨5, 6, "ORG"⟩] =
        render "abcdefgh".data 0 [⟨0, 1, "PERSON"⟩, ⟨5, 6, "ORG"⟩] :=
  ⟨by decide, claim_C3 "abcdefgh" [⟨0, 1, "PERSON"⟩, ⟨5, 6, "ORG"⟩] (by decide)⟩

/-- C3 counterexample: on a span sequence the capability returns out of
order, the pass is NOT "the spans sorted by start position descending" — the
code merely reverses the sequence, and each replacement corrupts the offsets
of the other. -/
theorem claim_C3_counterexample :
    entityPass "abcdefgh".data [⟨5, 6, "ORG"⟩, ⟨0, 1, "PERSON"⟩] ≠
      specSortedDescPass "abcdefgh".data [⟨5, 6, "ORG"⟩, ⟨0, 1, "PERSON"⟩] := by
  decide

/-- C4 (amended): when the capability is unavailable (the handle is `none`,
which is what the load-time recovery produces), `nlp_harden` returns the
fallback result; but an error raised by the invocation of an available
capability propagates to the caller. -/
theorem claim_C4 :
    (∀ text : String, nlp_harden none text = Except.ok (fallback_harden text)) ∧
      ∀ (f : String → Except String (List Ent)) (text e : String),
        f text = Except.error e → nlp_harden (some f) text = Except.error e :=
  ⟨fun _ => rfl, fun f text e h => by simp only [nlp_harden, h]⟩

theorem claim_C4_witness :
    failingCap "x" = Except.error "model failure" ∧
      nlp_harden (some failingCap) "x" = Except.error "model failure" :=
  ⟨rfl, claim_C4.2 failingCap "x" "model failure" rfl⟩

/-- C4 counterexample: a capability whose invocation fails makes `nlp_harden`
surface the error instead of the fallback result. -/
theorem claim_C4_counterexample :
    nlp_harden (some failingCap) "x" = Except.error "model failure" ∧
      Except.error "model failure" ≠ Except.ok (fallback_harden "x") :=
  ⟨rfl, fun h => Except.noConfusion h⟩

/-- C5: for every input text the score of `simulate_adversary` lies in
`[0, 100]`, even when several indicators fire at once. -/
theorem claim_C5 (text : String) :
    0 ≤ (simulate_adversary text).1 ∧ (simulate_adversary text).1 ≤ 100 := by
  rw [simulate_closed, assessSpec]
  constructor
  · exact le_min (by split_ifs <;> omega) (by norm_num)
  · exact min_le_right _ _

/-- C6: when no email match, no phone match and no taxonomy term occurs,
`simulate_adversary` returns score 0 and an empty evidence list (it is a
total function: absence of matches raises nothing). -/
theorem claim_C6 (text : String) (he : emailFires text = false)
    (hp : phoneFires text = false) (ht : firedTerms text = []) :
    simulate_adversary text = (0, []) := by
  rw [simulate_closed, assessSpec, he, hp, ht]
  simp

theorem claim_C6_witness :
    emailFires "The quick brown fox" = false ∧
      phoneFires "The quick brown fox" = false ∧
      firedTerms "The quick brown fox" = [] ∧
      simulate_adversary "The quick brown fox" = (0, []) :=
  ⟨by decide, by decide, by decide, claim_C6 _ (by decide) (by decide) (by decide)⟩

/-- C7: matching is substring-based, not word-boundary based: on
`"mysqldump"` the term `sql` fires in `simulate_adversary` (+15 with its
RECON line) and the fallback taxonomy substitution rewrites the embedded
occurrence. -/
theorem claim_C7 :
    simulate_adversary "mysqldump" = (15, ["RECON: Connection to SQL found."]) ∧
      fallback_harden "mysqldump" = "myStructured Database Systemsdump" :=
  ⟨by decide, by decide⟩

/-- C8: the empty string is scored 0 with no evidence, and hardening it
returns the empty string on every path (fallback, capability absent, and
capability returning no spans). -/
theorem claim_C8 :
    simulate_adversary "" = (0, []) ∧ fallback_harden "" = "" ∧
      nlp_harden none "" = Except.ok "" ∧
      ∀ f : String → Except String (List Ent),
        f "" = Except.ok [] → nlp_harden (some f) "" = Except.ok "" := by
  refine ⟨by decide, by decide, congrArg Except.ok (by decide), fun f h => ?_⟩
  simp only [nlp_harden, h]
  exact congrArg Except.ok (by decide)

theorem claim_C8_witness :
    emptyCap "" = Except.ok [] ∧ nlp_harden (some emptyCap) "" = Except.ok "" :=
  ⟨rfl, claim_C8.2.2.2 emptyCap rfl⟩

/-- C9 (amended): on any text that contains none of the four code points
(İ, ı, ſ, Kelvin sign) that IGNORECASE matches against an ASCII letter
beyond plain lowercasing, a zero score from `simulate_adversary` implies the
fallback hardener is the identity.  Without that restriction the implication
fails (see the counterexample `"ſql"`), because the scorer tests exact
containment in the lowercased text while the hardener matches the Unicode
case-equivalents as well. -/
theorem claim_C9 (text : String) (hnc : noCaseEquiv text.data = true)
    (h : (simulate_adversary text).1 = 0) :
    fallback_harden text = text := by
  rw [simulate_closed] at h
  have hmin : min ((if emailFires text then (40 : Int) else 0)
      + (if phoneFires text then (30 : Int) else 0)
      + 15 * ((firedTerms text).length : Int)) 100 = 0 := h
  have hS : (if emailFires text then (40 : Int) else 0)
      + (if phoneFires text then (30 : Int) else 0)
      + 15 * ((firedTerms text).length : Int) = 0 :=
    min_hundred_eq_zero hmin
  have he : emailFires text = false := by
    cases hbe : emailFires text
    · rfl
    · exfalso
      rw [hbe] at hS
      simp only [eq_self_iff_true, if_true, ite_true] at hS
      split_ifs at hS <;> omega
  have hp : phoneFires text = false := by
    cases hbp : phoneFires text
    · rfl
    · exfalso
      rw [hbp] at hS
      simp only [eq_self_iff_true, if_true, ite_true] at hS
      split_ifs at hS <;> omega
  have ht : firedTerms text = [] := by
    rw [he, hp] at hS
    simp only [Bool.false_eq_true, ite_false, if_false] at hS
    have : (firedTerms text).length = 0 := by omega
    exact List.length_eq_zero.mp this
  have hterms : ∀ kv ∈ taxonomy,
      containsSubstr kv.1.data (text.data.map Char.toLower) = false := by
    intro kv hkv
    by_contra hc
    rw [Bool.not_eq_false] at hc
    have hmem : kv ∈ firedTerms text := List.mem_filter.mpr ⟨hkv, hc⟩
    rw [ht] at hmem
    exact absurd hmem (List.not_mem_nil kv)
  show (⟨taxonomy.foldl (fun acc kv => substCI kv.1.data kv.2.data acc)
      (subst matchPhoneAt "[VERIFIED_LINE]".data
        (subst matchEmailAt "[ID_GATEWAY]".data text.data))⟩ : String) = text
  rw [subst_id _ _ _ he, subst_id _ _ _ hp,
    foldl_substCI_id taxonomy text.data hnc hterms]

theorem claim_C9_witness :
    noCaseEquiv "hello world".data = true ∧
      (simulate_adversary "hello world").1 = 0 ∧
      fallback_harden "hello world" = "hello world" :=
  ⟨by decide, by decide, claim_C9 "hello world" (by decide) (by decide)⟩

/-- C9 counterexample: the long s makes the claim fail as stated — the
input `"ſql"` scores 0 (no taxonomy term occurs in its lowercased form, and
`str.lower` leaves ſ unchanged), yet the IGNORECASE taxonomy substitution of
the fallback path matches ſ against `s` and rewrites the text. -/
theorem claim_C9_counterexample :
    (simulate_adversary "ſql").1 = 0 ∧
      fallback_harden "ſql" = "Structured Database Systems" ∧
      fallback_harden "ſql" ≠ "ſql" :=
  ⟨by decide, by decide, by decide⟩

/-- C10: the phone pattern is unanchored, so it fires inside an 11-digit
run: `"12345678901"` scores 30 with exactly the SIM-swap line, and the
fallback hardener replaces the run with `[VERIFIED_LINE]`. -/
theorem claim_C10 :
    simulate_adversary "12345678901" = (30, [phoneLine]) ∧
      fallback_harden "12345678901" = "[VERIFIED_LINE]" :=
  ⟨by decide, by decide⟩

end Sentinel

